import Mathlib

/-!
Verification of the Halide bounds-inference pass specification and the
image I/O utilities (`tools/halide_image_io.h`), as a shallow embedding.

The image I/O helpers (`convert`, `ends_with_ignore_case`, `save_png`'s
channel handling, `load`'s extension dispatch) are embedded directly from
`src/tools/halide_image_io.h`.  The bounds-inference pass itself is only
declared in `src/src/BoundsInference.h`; its behaviour is modelled from the
specification (see the doc comments marked `Modelled from the spec:`).
-/

namespace HalideTools

/-- From `halide_image_io.h` line 46: `convert(uint8_t in, uint16_t &out)
{out = in << 8;}`.  The uint8 input is promoted, shifted left by 8 and the
result truncated to 16 bits. -/
def convert_u8_to_u16 (v : Nat) : Nat := (v * 2 ^ 8) % 2 ^ 16

/-- From `halide_image_io.h` line 37: `convert(uint16_t in, uint8_t &out)
{out = in >> 8;}`.  The uint16 input is shifted right by 8 and the result
truncated to 8 bits. -/
def convert_u16_to_u8 (v : Nat) : Nat := (v / 2 ^ 8) % 2 ^ 8

/-- The libpng colour types selectable by `save_png`. -/
inductive PngColorType where
  | gray
  | grayAlpha
  | rgb
  | rgbAlpha
deriving DecidableEq

/-- From `halide_image_io.h` lines 227-229: the four-element `color_types`
array `{GRAY, GRAY_ALPHA, RGB, RGB_ALPHA}`. -/
def color_types : List PngColorType :=
  [PngColorType.gray, PngColorType.grayAlpha, PngColorType.rgb, PngColorType.rgbAlpha]

/-- From `halide_image_io.h` lines 224-230: `save_png` asserts
`im.channels() > 0 && im.channels() < 5` (`_assert` exits the process on
failure, modelled as `none`), then selects `color_types[im.channels() - 1]`. -/
def save_png_color_type (channels : Int) : Option PngColorType :=
  if channels > 0 && channels < 5 then color_types.get? (channels - 1).toNat
  else none

/-- `::tolower` in the C locale: map an ASCII upper-case letter to its
lower-case counterpart, leave every other character unchanged. -/
def toLowerChar (c : Char) : Char :=
  if 'A' ≤ c ∧ c ≤ 'Z' then Char.ofNat (c.toNat + 32) else c

/-- From `halide_image_io.h` lines 72-78: lower-case both strings with
`std::transform(..., ::tolower)`, then `a.compare(a.length()-b.length(),
b.length(), b) == 0`, i.e. compare the trailing `b.length()` characters of
the lowered `a` with the lowered `b`; returns `false` outright when `a` is
shorter than `b`. -/
def ends_with_ignore_case (ac bc : String) : Bool :=
  if ac.length < bc.length then false
  else
    (ac.data.map toLowerChar).drop (ac.data.length - bc.data.length)
      == bc.data.map toLowerChar

/-- The observable action taken by `load` for a given filename. -/
inductive LoadAction where
  | viaPNG
  | viaPPM
  | unsupportedError
deriving DecidableEq

/-- From `halide_image_io.h` lines 410-420: `load` calls `load_png` when the
filename ends with ".png" ignoring case, else `load_ppm` when it ends with
".ppm" ignoring case, else `_assert(false, ...)` terminates the process. -/
def load (filename : String) : LoadAction :=
  if ends_with_ignore_case filename ".png" then LoadAction.viaPNG
  else if ends_with_ignore_case filename ".ppm" then LoadAction.viaPPM
  else LoadAction.unsupportedError

/-- Case-insensitive suffix, phrased as a list suffix relation on the
lower-cased character sequences. -/
def EndsWithCI (f ext : String) : Prop :=
  (ext.data.map toLowerChar) <:+ (f.data.map toLowerChar)

end HalideTools

namespace HalideBounds

/-- Modelled from the spec: an Interval is a symbolic `[min, max]` pair; the
model concretises the expression domain to integers (§3 "Interval"). -/
structure Interval where
  lo : Int
  hi : Int
deriving DecidableEq

/-- A Box is one `Option Interval` per dimension; `none` is the explicit
empty region of §4.2 ("If no call to `stage_name` exists ... the result is
an explicit empty Box"). -/
abbrev Box := List (Option Interval)

/-- Modelled from the spec: one call-site argument, an affine index
expression `coeff * (consumer loop variable srcDim) + off` (§4.1
`image_under_affine(I, a, b)`). -/
structure Access where
  srcDim : Nat
  coeff : Int
  off : Int
deriving DecidableEq

/-- Modelled from the spec: one call site inside a stage's definition,
targeting `callee` with one affine index expression per callee dimension. -/
structure Call where
  callee : String
  args : List Access
deriving DecidableEq

/-- Modelled from the spec: a Stage is one named computation unit with fixed
dimensionality and a definition, here reduced to its list of call sites
(§3 "Stage"). -/
structure Stage where
  name : String
  dims : Nat
  calls : List Call
deriving DecidableEq

/-- Modelled from the spec: a fused group is a set of member stage names
together with the shared dimensions declared by the group's schedule
(§3 "Fused group", §4.4). -/
structure FusedGroup where
  members : List String
  sharedDims : List Nat
deriving DecidableEq

/-- Modelled from the spec: the target descriptor is used only for the
bound-rounding policy (extent padding to a vector-width multiple, §6). -/
structure Target where
  vecWidth : Nat
deriving DecidableEq

/-- The known-bounds overrides: a mapping from (stage name, dimension index)
to an already-fixed Interval (§3). -/
abbrev KB := List ((String × Nat) × Interval)

/-- Environment lookup: stage name to Stage (§3 "Environment"). -/
def lookupStage (env : List Stage) (n : String) : Option Stage :=
  env.find? (fun st => st.name == n)

/-- Known-bounds lookup for (stage, dimension). -/
def lookupKB (kb : KB) (s : String) (d : Nat) : Option Interval :=
  (kb.find? (fun e => e.1.1 == s && e.1.2 == d)).map (fun e => e.2)

/-- Modelled from the spec: `image_under_affine(I, a, b)` is the Interval of
`a*x+b` for `x` in `I`, the sign of `a` determining orientation (§4.1). -/
def affineImage (a b : Int) (I : Interval) : Interval :=
  if 0 ≤ a then ⟨a * I.lo + b, a * I.hi + b⟩ else ⟨a * I.hi + b, a * I.lo + b⟩

/-- Union of two possibly-empty Intervals: the smallest enclosing Interval,
with the empty region as neutral element (§4.1). -/
def unionO : Option Interval → Option Interval → Option Interval
  | none, y => y
  | some i, none => some i
  | some i, some j => some ⟨min i.lo j.lo, max i.hi j.hi⟩

/-- The Interval of a Box at a dimension (empty outside the Box). -/
def boxAt (b : Box) (d : Nat) : Option Interval := (b.get? d).join

/-- Modelled from the spec: the per-call per-dimension Interval required of
the callee: the call's index expression for dimension `d` mapped through the
Interval algebra, with the consumer's realized Box as input (§4.2). -/
def callContrib (cbox : Box) (c : Call) (d : Nat) : Option Interval :=
  match c.args.get? d with
  | none => none
  | some a => (boxAt cbox a.srcDim).map (affineImage a.coeff a.off)

/-- Modelled from the spec: all per-call contributions to dimension `d` of
stage `s`, scanning every call site in every already-resolved consumer's
realized body (§4.2, §4.3 step 1). -/
def consContribs (env : List Stage) :
    List (String × Box) → String → Nat → List (Option Interval)
  | [], _, _ => []
  | p :: rest, s, d =>
      (match lookupStage env p.1 with
       | none => []
       | some cst => (cst.calls.filter (fun c => c.callee == s)).map
           (fun c => callContrib p.2 c d))
      ++ consContribs env rest s d

/-- Modelled from the spec: the region required of dimension `d` of stage
`s` by its actual consumers: the union of the per-call Intervals over all
call sites found (§4.2). -/
def inferredDim (env : List Stage) (resolved : List (String × Box))
    (s : String) (d : Nat) : Option Interval :=
  (consContribs env resolved s d).foldl unionO none

/-- Modelled from the spec: a known-bounds override replaces (does not union
with) the inferred requirement for its dimension (§4.3 step 2). -/
def stageBoxDim (env : List Stage) (kb : KB) (resolved : List (String × Box))
    (s : String) (d : Nat) : Option Interval :=
  match lookupKB kb s d with
  | some o => some o
  | none => inferredDim env resolved s d

/-- Modelled from the spec: the dimensions of stage `s` whose known-bounds
override fails the superset check against the inferred requirement — a
bounds-violation (§4.3 step 2, §7 BoundsViolation). -/
def stageViolDims (env : List Stage) (kb : KB) (resolved : List (String × Box))
    (s : String) (dims : Nat) : List Nat :=
  (List.range dims).filter (fun d =>
    match lookupKB kb s d, inferredDim env resolved s d with
    | some o, some I => !(o.lo ≤ I.lo && I.hi ≤ o.hi)
    | _, _ => false)

/-- Driver state: the stages resolved so far with their finalized Boxes, and
the bounds violations detected so far. -/
structure DState where
  resolved : List (String × Box)
  viols : List (String × Nat)
deriving DecidableEq

/-- Modelled from the spec: resolve one stage — build its Box dimension by
dimension (override replacing inferred where present), record any
bounds-violations, and append the Box to the resolved list (§4.3). -/
def resolveStage (env : List Stage) (kb : KB) (st : DState) (s : String) : DState :=
  match lookupStage env s with
  | none => st
  | some stg =>
      ⟨st.resolved ++ [(s, (List.range stg.dims).map (stageBoxDim env kb st.resolved s))],
       st.viols ++ (stageViolDims env kb st.resolved s stg.dims).map (fun d => (s, d))⟩

/-- Modelled from the spec: the bounds propagation driver walks the
realization order in reverse — consumers before their producers (§4.3). -/
def runDriver (env : List Stage) (kb : KB) (order : List String) : DState :=
  order.reverse.foldl (resolveStage env kb) ⟨[], []⟩

/-- The per-stage inferred Boxes produced by the driver. -/
def inferBoxes (env : List Stage) (kb : KB) (order : List String) :
    List (String × Box) :=
  (runDriver env kb order).resolved

/-- Box lookup in the resolved list. -/
def lookupBox (boxes : List (String × Box)) (n : String) : Option Box :=
  (boxes.find? (fun p => p.1 == n)).map (fun p => p.2)

/-- Containment of possibly-empty Intervals: the left region lies inside the
right one; the empty region lies inside everything. -/
def oLE : Option Interval → Option Interval → Prop
  | none, _ => True
  | some _, none => False
  | some i, some j => j.lo ≤ i.lo ∧ i.hi ≤ j.hi

/-- Pointwise containment of Boxes. -/
def boxLE (b b' : Box) : Prop := List.Forall₂ oLE b b'

/-- Pointwise containment of resolved-Box lists: the same stages in the same
order, each Box contained in its counterpart. -/
def resLE (r r' : List (String × Box)) : Prop :=
  List.Forall₂ (fun p q => p.1 = q.1 ∧ boxLE p.2 q.2) r r'

/-- Widening of the known-bounds overrides: the same (stage, dimension) keys
in the same order, each override Interval replaced by a superset. -/
def kbWiderB : KB → KB → Bool
  | [], [] => true
  | e :: t, e' :: t' =>
      (e.1.1 == e'.1.1) && (e.1.2 == e'.1.2) &&
      decide (e'.2.lo ≤ e.2.lo) && decide (e.2.hi ≤ e'.2.hi) && kbWiderB t t'
  | _, _ => false

/-- List of distinct names, as a Boolean check. -/
def distinctB : List String → Bool
  | [] => true
  | x :: xs => !(xs.contains x) && distinctB xs

/-- Modelled from the spec: the realization order is valid when each name
appears exactly once, every output appears, every named stage is in the
environment, and every producer (callee) appears, before its consumer —
a topological order of the producer→consumer graph (§3, §7
InvalidRealizationOrder). -/
def orderValid (env : List Stage) (outputs order : List String) : Bool :=
  distinctB order &&
  outputs.all (fun o => order.contains o) &&
  order.all (fun s =>
    match lookupStage env s with
    | none => false
    | some st => st.calls.all (fun c =>
        order.contains c.callee &&
        Nat.blt (order.indexOf c.callee) (order.indexOf s)))

/-- Modelled from the spec: the union, across every member of a fused group,
of the individually-computed Interval at dimension `d` (§4.4). -/
def groupUnionAt (boxes : List (String × Box)) (g : FusedGroup) (d : Nat) :
    Option Interval :=
  g.members.foldl (fun acc m =>
    unionO acc (match lookupBox boxes m with
      | some b => boxAt b d
      | none => none)) none

/-- Modelled from the spec: the fused-group reconciler — a stage's finalized
Interval at a dimension is the group union when the stage belongs to a fused
group and the dimension is shared, and its individually-computed Interval
otherwise (§4.4). -/
def finalBoxAt (groups : List FusedGroup) (boxes : List (String × Box))
    (n : String) (d : Nat) : Option Interval :=
  match groups.find? (fun g => g.members.contains n) with
  | some g =>
      if g.sharedDims.contains d then groupUnionAt boxes g d
      else (lookupBox boxes n).bind (fun b => boxAt b d)
  | none => (lookupBox boxes n).bind (fun b => boxAt b d)

/-- Fused groups partition the realization order: no stage belongs to two
distinct groups (§3 "Fused group": each a contiguous sub-run of the
realization order). -/
def groupsDisjointB : List FusedGroup → Bool
  | [] => true
  | g :: gs =>
      gs.all (fun g2 => g.members.all (fun m => !(g2.members.contains m))) &&
      groupsDisjointB gs

/-- Expressions of the partially-lowered program (§9: tagged-variant IR). -/
inductive Expr where
  | lit : Int → Expr
  | evar : String → Expr
  | add : Expr → Expr → Expr
deriving DecidableEq

/-- Statements of the partially-lowered program: loop nests, produce/consume
markers, value bindings and stores (§9: tagged-variant IR). -/
inductive Stmt where
  | skip : Stmt
  | seq : Stmt → Stmt → Stmt
  | loopFor : String → Expr → Expr → Stmt → Stmt
  | produce : String → Stmt → Stmt
  | consume : String → Stmt → Stmt
  | letStmt : String → Expr → Stmt → Stmt
  | store : String → Expr → Expr → Stmt
deriving DecidableEq

/-- Does an expression reference the named symbol? -/
def Expr.uses : Expr → String → Bool
  | Expr.lit _, _ => false
  | Expr.evar v, n => v == n
  | Expr.add a b, n => a.uses n || b.uses n

/-- Does a statement reference the named symbol? -/
def Stmt.uses : Stmt → String → Bool
  | Stmt.skip, _ => false
  | Stmt.seq a b, n => a.uses n || b.uses n
  | Stmt.loopFor _ lo hi body, n => lo.uses n || hi.uses n || body.uses n
  | Stmt.produce _ body, n => body.uses n
  | Stmt.consume _ body, n => body.uses n
  | Stmt.letStmt _ v body, n => v.uses n || body.uses n
  | Stmt.store _ idx v, n => idx.uses n || v.uses n

/-- The three bound placeholders of a stage dimension (§6 naming convention
`"<stage>.<dimension>.{min,max,extent}"`). -/
inductive BKind where
  | bmin
  | bmax
  | bextent
deriving DecidableEq

/-- The suffix of a placeholder name for each bound kind. -/
def kindName : BKind → String
  | BKind.bmin => "min"
  | BKind.bmax => "max"
  | BKind.bextent => "extent"

/-- The placeholder name `"<stage>.<dimension>.{min,max,extent}"` (§6). -/
def phName (s : String) (d : Nat) (k : BKind) : String :=
  s ++ "." ++ Nat.repr d ++ "." ++ kindName k

/-- All placeholder keys of the pipeline, in a fixed deterministic order. -/
def allKeys (env : List Stage) (order : List String) :
    List (String × Nat × BKind) :=
  order.flatMap (fun s =>
    match lookupStage env s with
    | none => []
    | some st => (List.range st.dims).flatMap (fun d =>
        [(s, d, BKind.bmin), (s, d, BKind.bmax), (s, d, BKind.bextent)]))

/-- Modelled from the spec: extent rounding — `max - min + 1` padded up to a
vector-width multiple when the target requests it (§4.5, §6). -/
def roundExtent (e : Int) (w : Nat) : Int :=
  if w ≤ 1 then e else ((e + (w : Int) - 1) / (w : Int)) * (w : Int)

/-- The value bound to a placeholder: the corresponding endpoint of the
finalized (reconciled) Interval, the extent derived as `max - min + 1` with
target rounding (§4.5). -/
def bindingValue (groups : List FusedGroup) (boxes : List (String × Box))
    (t : Target) (s : String) (d : Nat) (k : BKind) : Int :=
  match finalBoxAt groups boxes s d with
  | none => 0
  | some I =>
      match k with
      | BKind.bmin => I.lo
      | BKind.bmax => I.hi
      | BKind.bextent => roundExtent (I.hi - I.lo + 1) t.vecWidth

/-- Modelled from the spec: the statement injector — for every placeholder
referenced in the program, insert exactly one value-binding definition with
the finalized bound value, preserving the rest of the program verbatim
(§4.5). -/
def inject (env : List Stage) (order : List String) (groups : List FusedGroup)
    (boxes : List (String × Box)) (t : Target) (prog : Stmt) : Stmt :=
  (allKeys env order).foldl (fun acc key =>
    if acc.uses (phName key.1 key.2.1 key.2.2) then
      Stmt.letStmt (phName key.1 key.2.1 key.2.2)
        (Expr.lit (bindingValue groups boxes t key.1 key.2.1 key.2.2)) acc
    else acc) prog

/-- The fatal error kinds surfaced by the pass (§7). -/
inductive BoundsError where
  | invalidRealizationOrder
  | boundsViolation : String → Nat → BoundsError
deriving DecidableEq

/-- The full input consumed by the pass, mirroring the signature of
`Halide::Internal::bounds_inference` in `src/src/BoundsInference.h`. -/
structure BInput where
  prog : Stmt
  outputs : List String
  order : List String
  fusedGroups : List FusedGroup
  env : List Stage
  funcBounds : KB
  target : Target
deriving DecidableEq

/-- Modelled from the spec: the bounds-inference pass. It validates the
realization order at entry (§7), runs the propagation driver in reverse
realization order (§4.3), fails with a `BoundsViolation` if any override
fails the superset check, and otherwise injects the finalized bounds into
the program (§4.5).  Errors produce no output program (§7: all-or-nothing). -/
def bounds_inference (i : BInput) : Except BoundsError Stmt :=
  if orderValid i.env i.outputs i.order then
    match (runDriver i.env i.funcBounds i.order).viols with
    | (s, d) :: _ => Except.error (BoundsError.boundsViolation s d)
    | [] => Except.ok (inject i.env i.order i.fusedGroups
        (runDriver i.env i.funcBounds i.order).resolved i.target i.prog)
  else Except.error BoundsError.invalidRealizationOrder

/-- A program has no remaining bound placeholders when no placeholder name
of any stage in the realization order is referenced anywhere in it. -/
def noPlaceholdersB (env : List Stage) (order : List String) (prog : Stmt) : Bool :=
  (allKeys env order).all (fun k => !(prog.uses (phName k.1 k.2.1 k.2.2)))

namespace Examples

/-- Producer `P` and stencil consumer `C(x) = P(x-1) + P(x+1)` (§8). -/
def envStencil : List Stage :=
  [⟨"P", 1, []⟩,
   ⟨"C", 1, [⟨"P", [⟨0, 1, -1⟩]⟩, ⟨"P", [⟨0, 1, 1⟩]⟩]⟩]

/-- Output bound `C` over `[0, 99]` for the stencil example. -/
def kbStencil : KB := [(("C", 0), ⟨0, 99⟩)]

/-- The stencil output bound `[0, 99]` widened to the superset `[-10, 120]`. -/
def kbStencilWide : KB := [(("C", 0), ⟨-10, 120⟩)]

/-- Output stage `O` consumed at identity offsets by an internal consumer
`Cons`. -/
def envViol : List Stage :=
  [⟨"O", 1, []⟩,
   ⟨"Cons", 1, [⟨"O", [⟨0, 1, 0⟩]⟩]⟩]

/-- Known bounds for the violation example: an override of `[0, 50]` on `O`
while `Cons`, realized over `[0, 99]`, reads `O` over `[0, 99]`. -/
def kbViol : KB := [(("Cons", 0), ⟨0, 99⟩), (("O", 0), ⟨0, 50⟩)]

/-- Full pass input for the violation example. -/
def inViol : BInput := ⟨Stmt.skip, ["Cons"], ["O", "Cons"], [], envViol, kbViol, ⟨1⟩⟩

/-- The violation input with the realization order reversed: the consumer
`Cons` is listed before its producer `O`. -/
def inBadOrder : BInput := ⟨Stmt.skip, ["Cons"], ["Cons", "O"], [], envViol, kbViol, ⟨1⟩⟩

/-- A valid, violation-free input whose program is fully bound (it contains
no placeholder references at all). -/
def inBound : BInput :=
  ⟨Stmt.produce "Cons" (Stmt.loopFor "x" (Expr.lit 0) (Expr.lit 99)
      (Stmt.store "Cons" (Expr.evar "x") (Expr.lit 7))),
   ["Cons"], ["O", "Cons"], [], envViol, [(("Cons", 0), ⟨0, 99⟩)], ⟨1⟩⟩

/-- A fused group of two members `A` and `B` sharing dimension 0. -/
def gAB : FusedGroup := ⟨["A", "B"], [0]⟩

/-- Individually-computed Boxes for the members of `gAB` that disagree on
the shared dimension before reconciliation. -/
def boxesAB : List (String × Box) :=
  [("A", [some ⟨0, 10⟩]), ("B", [some ⟨5, 20⟩])]

end Examples

deriving instance DecidableEq for Except

end HalideBounds

namespace HalideTools

lemma drop_eq_iff_suffix {α : Type} (l₁ l₂ : List α) (h : l₁.length ≤ l₂.length) :
    l₂.drop (l₂.length - l₁.length) = l₁ ↔ l₁ <:+ l₂ := by
  constructor
  · intro he
    exact he ▸ List.drop_suffix _ _
  · rintro ⟨t, rfl⟩
    rw [List.length_append, Nat.add_sub_cancel, List.drop_left]

lemma ends_with_ignore_case_iff (f ext : String) :
    ends_with_ignore_case f ext = true ↔ EndsWithCI f ext := by
  unfold ends_with_ignore_case EndsWithCI
  by_cases hl : f.length < ext.length
  · simp only [hl, if_true]
    constructor
    · intro h; cases h
    · intro h
      have := h.length_le
      simp only [List.length_map] at this
      have hf : f.length = f.data.length := rfl
      have he : ext.length = ext.data.length := rfl
      omega
  · simp only [hl, if_false, beq_iff_eq]
    have hle : (ext.data.map toLowerChar).length ≤ (f.data.map toLowerChar).length := by
      simp only [List.length_map]
      have hf : f.length = f.data.length := rfl
      have he : ext.length = ext.data.length := rfl
      omega
    have := drop_eq_iff_suffix (ext.data.map toLowerChar) (f.data.map toLowerChar) hle
    simp only [List.length_map] at this
    exact this

end HalideTools

/-- C8: the pixel conversions round-trip from 8 bits through 16 bits: for
every uint8 value `v`, converting to uint16 (yielding `v << 8`) and back to
uint8 (yielding `>> 8`) returns exactly `v`. -/
theorem convert_roundtrip_u8_u16 (v : Nat) (h : v < 2 ^ 8) :
    HalideTools.convert_u16_to_u8 (HalideTools.convert_u8_to_u16 v) = v := by
  unfold HalideTools.convert_u8_to_u16 HalideTools.convert_u16_to_u8
  omega

/-- Witness for C8 at `v = 200`. -/
theorem convert_roundtrip_u8_u16_witness :
    HalideTools.convert_u16_to_u8 (HalideTools.convert_u8_to_u16 200) = 200 :=
  convert_roundtrip_u8_u16 200 (by decide)

/-- C9: `save_png` exits with an error unless the channel count is 1, 2, 3
or 4; under that precondition indexing `color_types` by `channels - 1` is in
bounds and selects GRAY, GRAY_ALPHA, RGB or RGB_ALPHA respectively. -/
theorem save_png_channel_guard (c : Int) (t : HalideTools.PngColorType) :
    HalideTools.save_png_color_type c = some t ↔
      (c = 1 ∧ t = HalideTools.PngColorType.gray) ∨
      (c = 2 ∧ t = HalideTools.PngColorType.grayAlpha) ∨
      (c = 3 ∧ t = HalideTools.PngColorType.rgb) ∨
      (c = 4 ∧ t = HalideTools.PngColorType.rgbAlpha) := by
  by_cases h1 : 0 < c ∧ c < 5
  · have h2 : c = 1 ∨ c = 2 ∨ c = 3 ∨ c = 4 := by omega
    rcases h2 with rfl | rfl | rfl | rfl <;> cases t <;> decide
  · have hc : ¬ ((c > 0 && c < 5) = true) := by
      simp only [Bool.and_eq_true, decide_eq_true_eq]
      omega
    simp only [HalideTools.save_png_color_type, if_neg hc]
    constructor
    · intro h; cases h
    · rintro (⟨rfl, _⟩ | ⟨rfl, _⟩ | ⟨rfl, _⟩ | ⟨rfl, _⟩) <;> omega

/-- C10: `load` dispatches by case-insensitive extension: it uses the PNG
loader iff the filename ends with ".png" ignoring case; otherwise the PPM
loader iff it ends with ".ppm" ignoring case; otherwise it terminates with
an unsupported-extension error. -/
theorem load_dispatch (f : String) :
    (HalideTools.load f = HalideTools.LoadAction.viaPNG ↔ HalideTools.EndsWithCI f ".png") ∧
    (HalideTools.load f = HalideTools.LoadAction.viaPPM ↔
      ¬ HalideTools.EndsWithCI f ".png" ∧ HalideTools.EndsWithCI f ".ppm") ∧
    (HalideTools.load f = HalideTools.LoadAction.unsupportedError ↔
      ¬ HalideTools.EndsWithCI f ".png" ∧ ¬ HalideTools.EndsWithCI f ".ppm") := by
  unfold HalideTools.load
  by_cases hpng : HalideTools.ends_with_ignore_case f ".png" = true
  · have hp := (HalideTools.ends_with_ignore_case_iff f ".png").mp hpng
    simp [hpng, hp]
  · have hp : ¬ HalideTools.EndsWithCI f ".png" := fun h =>
      hpng ((HalideTools.ends_with_ignore_case_iff f ".png").mpr h)
    by_cases hppm : HalideTools.ends_with_ignore_case f ".ppm" = true
    · have hq := (HalideTools.ends_with_ignore_case_iff f ".ppm").mp hppm
      simp [hpng, hppm, hp, hq]
    · have hq : ¬ HalideTools.EndsWithCI f ".ppm" := fun h =>
        hppm ((HalideTools.ends_with_ignore_case_iff f ".ppm").mpr h)
      simp [hpng, hppm, hp, hq]

namespace HalideBounds

lemma inject_foldl_noop (groups : List FusedGroup) (boxes : List (String × Box))
    (t : Target) :
    ∀ (keys : List (String × Nat × BKind)) (prog : Stmt),
      (∀ k ∈ keys, prog.uses (phName k.1 k.2.1 k.2.2) = false) →
      keys.foldl (fun acc key =>
        if acc.uses (phName key.1 key.2.1 key.2.2) then
          Stmt.letStmt (phName key.1 key.2.1 key.2.2)
            (Expr.lit (bindingValue groups boxes t key.1 key.2.1 key.2.2)) acc
        else acc) prog = prog
  | [], _, _ => rfl
  | k :: ks, prog, h => by
      have h0 := h k (List.mem_cons_self k ks)
      simp only [List.foldl_cons, h0, Bool.false_eq_true, if_false]
      exact inject_foldl_noop groups boxes t ks prog
        (fun k' hk' => h k' (List.mem_cons_of_mem _ hk'))

lemma inject_noop (env : List Stage) (order : List String)
    (groups : List FusedGroup) (boxes : List (String × Box)) (t : Target)
    (prog : Stmt) (h : noPlaceholdersB env order prog = true) :
    inject env order groups boxes t prog = prog := by
  apply inject_foldl_noop
  intro k hk
  have := (List.all_eq_true.mp h) k hk
  simpa using this

end HalideBounds

/-- C5: a supplied realization order that is not a valid topological order
of the producer-to-consumer dependency graph (or omits a required stage) is
rejected at entry with `InvalidRealizationOrder`, and no output program is
emitted. -/
theorem invalid_order_rejected (i : HalideBounds.BInput)
    (h : HalideBounds.orderValid i.env i.outputs i.order = false) :
    HalideBounds.bounds_inference i =
      Except.error HalideBounds.BoundsError.invalidRealizationOrder := by
  unfold HalideBounds.bounds_inference
  rw [h]
  simp

/-- Witness for C5: the consumer `Cons` listed before its producer `O`. -/
theorem invalid_order_rejected_witness :
    HalideBounds.bounds_inference HalideBounds.Examples.inBadOrder =
      Except.error HalideBounds.BoundsError.invalidRealizationOrder :=
  invalid_order_rejected HalideBounds.Examples.inBadOrder (by decide)

/-- C1: whenever some stage and dimension has a known-bounds override that
fails the superset check against the region inferred from that stage's
actual consumers, `bounds_inference` fails with a `BoundsViolation` naming a
violating stage and dimension, and emits no output program. -/
theorem bounds_violation_reported (i : HalideBounds.BInput) (s : String) (d : Nat)
    (h1 : HalideBounds.orderValid i.env i.outputs i.order = true)
    (h2 : (s, d) ∈ (HalideBounds.runDriver i.env i.funcBounds i.order).viols) :
    ∃ s' d', (s', d') ∈ (HalideBounds.runDriver i.env i.funcBounds i.order).viols ∧
      HalideBounds.bounds_inference i =
        Except.error (HalideBounds.BoundsError.boundsViolation s' d') := by
  unfold HalideBounds.bounds_inference
  rw [h1]
  simp only [if_true]
  rcases hv : (HalideBounds.runDriver i.env i.funcBounds i.order).viols with
    _ | ⟨⟨vs, vd⟩, rest⟩
  · rw [hv] at h2
    cases h2
  · exact ⟨vs, vd, List.mem_cons_self _ _, rfl⟩

/-- Witness for C1: the output override `[0, 50]` on `O` combined with the
internal consumer `Cons` requiring `[0, 99]` raises `BoundsViolation`. -/
theorem bounds_violation_reported_witness :
    ∃ s' d',
      (s', d') ∈ (HalideBounds.runDriver HalideBounds.Examples.inViol.env
        HalideBounds.Examples.inViol.funcBounds HalideBounds.Examples.inViol.order).viols ∧
      HalideBounds.bounds_inference HalideBounds.Examples.inViol =
        Except.error (HalideBounds.BoundsError.boundsViolation s' d') :=
  bounds_violation_reported HalideBounds.Examples.inViol "O" 0 (by decide) (by decide)

/-- C2: for producer `P` and consumer `C(x) = P(x-1) + P(x+1)` realized over
output domain `x` in `[0, 99]`, the inferred Box for `P` is exactly the
Interval `[-1, 100]` in dimension `x`. -/
theorem stencil_example_bounds :
    HalideBounds.lookupBox
      (HalideBounds.inferBoxes HalideBounds.Examples.envStencil
        HalideBounds.Examples.kbStencil ["P", "C"]) "P" =
      some [some ⟨-1, 100⟩] := by decide

/-- C3: the pass is deterministic — identical inputs yield identical (hence
byte-identical) output programs. -/
theorem bounds_inference_deterministic (i j : HalideBounds.BInput) (h : i = j) :
    HalideBounds.bounds_inference i = HalideBounds.bounds_inference j := by
  rw [h]

/-- Witness for C3 at a concrete input. -/
theorem bounds_inference_deterministic_witness :
    HalideBounds.bounds_inference HalideBounds.Examples.inBound =
      HalideBounds.bounds_inference HalideBounds.Examples.inBound :=
  bounds_inference_deterministic HalideBounds.Examples.inBound
    HalideBounds.Examples.inBound rfl

/-- C7: on an input whose program contains no remaining bound placeholders,
whenever the pass emits a program it is structurally identical to the input
program — loop nests, produce/consume markers and existing bindings are
preserved verbatim. -/
theorem idempotent_on_fully_bound (i : HalideBounds.BInput) (s : HalideBounds.Stmt)
    (h1 : HalideBounds.noPlaceholdersB i.env i.order i.prog = true)
    (h2 : HalideBounds.bounds_inference i = Except.ok s) :
    s = i.prog := by
  unfold HalideBounds.bounds_inference at h2
  split at h2
  · split at h2
    · exact absurd h2 (by simp)
    · injection h2 with h2
      rw [← h2]
      exact HalideBounds.inject_noop _ _ _ _ _ _ h1
  · exact absurd h2 (by simp)

/-- Witness for C7: a fully-bound loop-nest program over `Cons` is returned
verbatim. -/
theorem idempotent_on_fully_bound_witness :
    HalideBounds.Examples.inBound.prog = HalideBounds.Examples.inBound.prog :=
  idempotent_on_fully_bound HalideBounds.Examples.inBound
    HalideBounds.Examples.inBound.prog (by decide) (by decide)

namespace HalideBounds

lemma find_group (groups : List FusedGroup) (g : FusedGroup) (m : String)
    (hdis : groupsDisjointB groups = true) (hg : g ∈ groups)
    (hm : m ∈ g.members) :
    groups.find? (fun g' => g'.members.contains m) = some g := by
  induction groups with
  | nil => cases hg
  | cons gh gt ih =>
      have hA : gt.all (fun g2 => gh.members.all (fun x => !(g2.members.contains x))) = true
          ∧ groupsDisjointB gt = true := by
        simpa [groupsDisjointB, Bool.and_eq_true] using hdis
      rcases List.mem_cons.mp hg with rfl | hgt
      · have hc : g.members.contains m = true := by simpa using hm
        rw [List.find?_cons]
        simp only [hc]
      · have hnotin : m ∉ gh.members := by
          intro hmem
          have ha1 := (List.all_eq_true.mp hA.1) g hgt
          have ha2 := (List.all_eq_true.mp ha1) m hmem
          rw [show g.members.contains m = true by simpa using hm] at ha2
          cases ha2
        have hc : gh.members.contains m = false := by
          simp only [← Bool.not_eq_true]
          intro hcon
          exact hnotin (by simpa using hcon)
        rw [List.find?_cons]
        simp only [hc]
        exact ih hA.2 hgt

end HalideBounds

/-- C4: after reconciliation, for every fused group and every dimension the
group shares, every member stage's finalized Interval for that dimension is
pointwise equal across the group's members. -/
theorem fused_group_agreement (groups : List HalideBounds.FusedGroup)
    (boxes : List (String × HalideBounds.Box)) (g : HalideBounds.FusedGroup)
    (m1 m2 : String) (d : Nat)
    (hdis : HalideBounds.groupsDisjointB groups = true) (hg : g ∈ groups)
    (h1 : m1 ∈ g.members) (h2 : m2 ∈ g.members) (hd : d ∈ g.sharedDims) :
    HalideBounds.finalBoxAt groups boxes m1 d =
      HalideBounds.finalBoxAt groups boxes m2 d := by
  unfold HalideBounds.finalBoxAt
  rw [HalideBounds.find_group groups g m1 hdis hg h1,
    HalideBounds.find_group groups g m2 hdis hg h2]
  have hc : g.sharedDims.contains d = true := by simpa using hd
  dsimp only
  rw [if_pos hc, if_pos hc]

/-- Witness for C4: members `A` and `B` of a fused group sharing dimension 0
agree on that dimension after reconciliation. -/
theorem fused_group_agreement_witness :
    HalideBounds.finalBoxAt [HalideBounds.Examples.gAB]
        HalideBounds.Examples.boxesAB "A" 0 =
      HalideBounds.finalBoxAt [HalideBounds.Examples.gAB]
        HalideBounds.Examples.boxesAB "B" 0 :=
  fused_group_agreement [HalideBounds.Examples.gAB] HalideBounds.Examples.boxesAB
    HalideBounds.Examples.gAB "A" "B" 0 (by decide) (by decide) (by decide)
    (by decide) (by decide)

namespace HalideBounds

lemma oLE_trans {x y z : Option Interval} (h1 : oLE x y) (h2 : oLE y z) : oLE x z := by
  cases x with
  | none => trivial
  | some i =>
      cases y with
      | none => exact h1.elim
      | some j =>
          cases z with
          | none => exact h2.elim
          | some k =>
              obtain ⟨a1, a2⟩ := h1
              obtain ⟨b1, b2⟩ := h2
              exact ⟨le_trans b1 a1, le_trans a2 b2⟩

lemma oLE_union_right (x y : Option Interval) : oLE y (unionO x y) := by
  cases x with
  | none =>
      cases y with
      | none => trivial
      | some j => exact ⟨le_refl _, le_refl _⟩
  | some i =>
      cases y with
      | none => trivial
      | some j => exact ⟨min_le_right _ _, le_max_right _ _⟩

lemma unionO_mono {x x' y y' : Option Interval} (hx : oLE x x') (hy : oLE y y') :
    oLE (unionO x y) (unionO x' y') := by
  cases x with
  | none => exact oLE_trans hy (oLE_union_right x' y')
  | some i =>
      cases x' with
      | none => exact hx.elim
      | some i' =>
          obtain ⟨h1, h2⟩ := hx
          cases y with
          | none =>
              cases y' with
              | none => exact ⟨h1, h2⟩
              | some j' => exact ⟨le_trans (min_le_left _ _) h1, le_trans h2 (le_max_left _ _)⟩
          | some j =>
              cases y' with
              | none => exact hy.elim
              | some j' =>
                  obtain ⟨h3, h4⟩ := hy
                  exact ⟨le_min (le_trans (min_le_left _ _) h1) (le_trans (min_le_right _ _) h3),
                    max_le (le_trans h2 (le_max_left _ _)) (le_trans h4 (le_max_right _ _))⟩

lemma foldl_unionO_mono : ∀ {l l' : List (Option Interval)}, List.Forall₂ oLE l l' →
    ∀ {a a' : Option Interval}, oLE a a' →
      oLE (l.foldl unionO a) (l'.foldl unionO a')
  | _, _, List.Forall₂.nil, _, _, ha => ha
  | _, _, List.Forall₂.cons hxy ht, _, _, ha =>
      foldl_unionO_mono ht (unionO_mono ha hxy)

lemma affineImage_mono (a b : Int) {x y : Option Interval} (h : oLE x y) :
    oLE (x.map (affineImage a b)) (y.map (affineImage a b)) := by
  cases x with
  | none => trivial
  | some i =>
      cases y with
      | none => exact h.elim
      | some j =>
          obtain ⟨h1, h2⟩ := h
          show oLE (some (affineImage a b i)) (some (affineImage a b j))
          unfold affineImage
          by_cases ha : 0 ≤ a
          · rw [if_pos ha, if_pos ha]
            exact ⟨add_le_add_right (mul_le_mul_of_nonneg_left h1 ha) b,
              add_le_add_right (mul_le_mul_of_nonneg_left h2 ha) b⟩
          · have ha' : a ≤ 0 := le_of_lt (lt_of_not_ge ha)
            rw [if_neg ha, if_neg ha]
            exact ⟨add_le_add_right (mul_le_mul_of_nonpos_left h2 ha') b,
              add_le_add_right (mul_le_mul_of_nonpos_left h1 ha') b⟩

lemma boxAt_mono : ∀ {b b' : Box}, boxLE b b' → ∀ (d : Nat), oLE (boxAt b d) (boxAt b' d)
  | _, _, List.Forall₂.nil, _ => trivial
  | _, _, List.Forall₂.cons hxy _, 0 => hxy
  | _, _, List.Forall₂.cons _ ht, (d + 1) => boxAt_mono ht d

lemma callContrib_mono {cb cb' : Box} (h : boxLE cb cb') (c : Call) (d : Nat) :
    oLE (callContrib cb c d) (callContrib cb' c d) := by
  unfold callContrib
  cases c.args.get? d with
  | none => trivial
  | some a => exact affineImage_mono a.coeff a.off (boxAt_mono h a.srcDim)

lemma forall₂_append {α β : Type} {R : α → β → Prop} :
    ∀ {l1 l2 : List α} {l1' l2' : List β}, List.Forall₂ R l1 l1' →
      List.Forall₂ R l2 l2' → List.Forall₂ R (l1 ++ l2) (l1' ++ l2')
  | _, _, _, _, List.Forall₂.nil, h2 => h2
  | _, _, _, _, List.Forall₂.cons hxy ht, h2 =>
      List.Forall₂.cons hxy (forall₂_append ht h2)

lemma forall₂_map {α : Type} {β γ : Type} {R : β → γ → Prop} :
    ∀ (l : List α) (f : α → β) (g : α → γ),
      (∀ x ∈ l, R (f x) (g x)) → List.Forall₂ R (l.map f) (l.map g)
  | [], _, _, _ => List.Forall₂.nil
  | x :: t, f, g, h =>
      List.Forall₂.cons (h x (List.mem_cons_self x t))
        (forall₂_map t f g (fun y hy => h y (List.mem_cons_of_mem _ hy)))

lemma consContribs_mono (env : List Stage) :
    ∀ {R R' : List (String × Box)}, resLE R R' → ∀ (s : String) (d : Nat),
      List.Forall₂ oLE (consContribs env R s d) (consContribs env R' s d)
  | _, _, List.Forall₂.nil, _, _ => List.Forall₂.nil
  | _, _, @List.Forall₂.cons _ _ _ p q t t' hpq ht, s, d => by
      obtain ⟨hname, hbox⟩ := hpq
      show List.Forall₂ oLE
        ((match lookupStage env p.1 with
          | none => []
          | some cst => (cst.calls.filter (fun c => c.callee == s)).map
              (fun c => callContrib p.2 c d)) ++ consContribs env t s d)
        ((match lookupStage env q.1 with
          | none => []
          | some cst => (cst.calls.filter (fun c => c.callee == s)).map
              (fun c => callContrib q.2 c d)) ++ consContribs env t' s d)
      rw [hname]
      cases lookupStage env q.1 with
      | none => exact forall₂_append List.Forall₂.nil (consContribs_mono env ht s d)
      | some cst =>
          exact forall₂_append
            (forall₂_map _ _ _ (fun c _ => callContrib_mono hbox c d))
            (consContribs_mono env ht s d)

lemma inferredDim_mono (env : List Stage) {R R' : List (String × Box)}
    (h : resLE R R') (s : String) (d : Nat) :
    oLE (inferredDim env R s d) (inferredDim env R' s d) :=
  foldl_unionO_mono (consContribs_mono env h s d) trivial

lemma lookupKB_wider : ∀ (kb kb' : KB), kbWiderB kb kb' = true →
    ∀ (s : String) (d : Nat),
      (lookupKB kb s d = none ∧ lookupKB kb' s d = none) ∨
      (∃ i i', lookupKB kb s d = some i ∧ lookupKB kb' s d = some i' ∧
        i'.lo ≤ i.lo ∧ i.hi ≤ i'.hi)
  | [], [], _, _, _ => Or.inl ⟨rfl, rfl⟩
  | [], _ :: _, h, _, _ => by cases h
  | _ :: _, [], h, _, _ => by cases h
  | e :: t, e' :: t', h, s, d => by
      simp only [kbWiderB, Bool.and_eq_true, beq_iff_eq, decide_eq_true_eq] at h
      obtain ⟨⟨⟨⟨hs, hd⟩, hlo⟩, hhi⟩, ht⟩ := h
      unfold lookupKB
      rw [List.find?_cons, List.find?_cons]
      rcases hp : (e.1.1 == s && e.1.2 == d) with _ | _
      · have hp' : (e'.1.1 == s && e'.1.2 == d) = false := by
          rw [← hs, ← hd]; exact hp
        rw [hp']
        exact lookupKB_wider t t' ht s d
      · have hp' : (e'.1.1 == s && e'.1.2 == d) = true := by
          rw [← hs, ← hd]; exact hp
        rw [hp']
        exact Or.inr ⟨e.2, e'.2, rfl, rfl, hlo, hhi⟩

lemma stageBoxDim_mono (env : List Stage) {kb kb' : KB}
    (hkb : kbWiderB kb kb' = true) {R R' : List (String × Box)}
    (h : resLE R R') (s : String) (d : Nat) :
    oLE (stageBoxDim env kb R s d) (stageBoxDim env kb' R' s d) := by
  unfold stageBoxDim
  rcases lookupKB_wider kb kb' hkb s d with ⟨h1, h2⟩ | ⟨i, i', h1, h2, h3, h4⟩
  · rw [h1, h2]
    exact inferredDim_mono env h s d
  · rw [h1, h2]
    exact ⟨h3, h4⟩

lemma resolveStage_mono (env : List Stage) {kb kb' : KB}
    (hkb : kbWiderB kb kb' = true) {st st' : DState}
    (h : resLE st.resolved st'.resolved) (s : String) :
    resLE (resolveStage env kb st s).resolved (resolveStage env kb' st' s).resolved := by
  unfold resolveStage
  cases lookupStage env s with
  | none => exact h
  | some stg =>
      exact forall₂_append h
        (List.Forall₂.cons
          ⟨rfl, forall₂_map _ _ _ (fun d _ => stageBoxDim_mono env hkb h s d)⟩
          List.Forall₂.nil)

lemma foldl_resolve_mono (env : List Stage) {kb kb' : KB}
    (hkb : kbWiderB kb kb' = true) :
    ∀ (l : List String) (st st' : DState), resLE st.resolved st'.resolved →
      resLE ((l.foldl (resolveStage env kb) st).resolved)
        ((l.foldl (resolveStage env kb') st').resolved)
  | [], _, _, h => h
  | s :: rest, st, st', h => by
      simp only [List.foldl_cons]
      exact foldl_resolve_mono env hkb rest _ _ (resolveStage_mono env hkb h s)

lemma lookupBox_rel : ∀ {R R' : List (String × Box)}, resLE R R' →
    ∀ (s : String) {b b' : Box},
      lookupBox R s = some b → lookupBox R' s = some b' → boxLE b b'
  | _, _, List.Forall₂.nil, _, _, _, hb, _ => by cases hb
  | _, _, @List.Forall₂.cons _ _ _ p q t t' hpq ht, s, b, b', hb, hb' => by
      obtain ⟨hname, hbox⟩ := hpq
      unfold lookupBox at hb hb'
      rw [List.find?_cons] at hb hb'
      rcases hp : (p.1 == s) with _ | _
      · have hp' : (q.1 == s) = false := by rw [← hname]; exact hp
        rw [hp] at hb
        rw [hp'] at hb'
        exact lookupBox_rel ht s hb hb'
      · have hp' : (q.1 == s) = true := by rw [← hname]; exact hp
        rw [hp] at hb
        rw [hp'] at hb'
        simp only [Option.map_some] at hb hb'
        injection hb with hb
        injection hb' with hb'
        rw [← hb, ← hb']
        exact hbox

end HalideBounds

/-- C6: monotonicity of inference in consumer demand — widening the
known-bounds overrides (replacing overrides by superset Intervals) never
narrows any stage's inferred Box: every inferred Box under the widened
overrides contains the corresponding inferred Box under the original
overrides. -/
theorem inference_monotone (env : List HalideBounds.Stage)
    (kb kb' : HalideBounds.KB) (order : List String)
    (hkb : HalideBounds.kbWiderB kb kb' = true) (s : String)
    (b b' : HalideBounds.Box)
    (hb : HalideBounds.lookupBox (HalideBounds.inferBoxes env kb order) s = some b)
    (hb' : HalideBounds.lookupBox (HalideBounds.inferBoxes env kb' order) s = some b') :
    HalideBounds.boxLE b b' := by
  unfold HalideBounds.inferBoxes HalideBounds.runDriver at hb hb'
  exact HalideBounds.lookupBox_rel
    (HalideBounds.foldl_resolve_mono env hkb order.reverse ⟨[], []⟩ ⟨[], []⟩
      List.Forall₂.nil) s hb hb'

/-- Witness for C6: widening the stencil output bound from `[0, 99]` to
`[-10, 120]` widens the inferred Box of `P` from `[-1, 100]` to `[-11, 121]`. -/
theorem inference_monotone_witness :
    HalideBounds.boxLE [some ⟨-1, 100⟩] [some ⟨-11, 121⟩] :=
  inference_monotone HalideBounds.Examples.envStencil HalideBounds.Examples.kbStencil
    HalideBounds.Examples.kbStencilWide ["P", "C"] (by decide) "P"
    [some ⟨-1, 100⟩] [some ⟨-11, 121⟩] (by decide) (by decide)
